import Mathlib

/-!
# Verification of the ListIt location fuzzy-matching subsystem

Shallow embedding of the city-normalization / fuzzy-matching engine of
`src/server.js` (functions `normLetters`, `cityOf`, `levenshtein`,
`pickMatchingCities`) and of the `/api/listings` search integration
(public path), together with proofs of the spec's claims about them.

Strings are modelled as Lean `String`s (lists of characters); the
JavaScript `toLowerCase` is modelled on the ASCII range, which is the
only range the normalizer keeps.
-/

namespace ListIt

/-- ASCII lowercasing of one character, modelling `toLowerCase` on the
code points relevant to the normalizer: `A`–`Z` (65–90) map to
`a`–`z` (97–122); everything else is unchanged. -/
def lowerChar (c : Char) : Char :=
  if 65 ≤ c.toNat ∧ c.toNat ≤ 90 then Char.ofNat (c.toNat + 32) else c

/-- `true` exactly on the lowercase ASCII letters `a`–`z` (97–122),
modelling the regex class `[a-z]`. -/
def isLowerAZ (c : Char) : Bool :=
  decide (97 ≤ c.toNat ∧ c.toNat ≤ 122)

/-- Lowercase a whole string (`String.prototype.toLowerCase`). -/
def strLower (s : String) : String :=
  ⟨s.data.map lowerChar⟩

/-- `normLetters` from `server.js`:
`String(s||'').toLowerCase().replace(/[^a-z]/g,'')` — lowercase, then
delete every character outside `a`–`z`. -/
def normLetters (s : String) : String :=
  ⟨(s.data.map lowerChar).filter isLowerAZ⟩

/-- Whitespace test used by `trim` (space, tab, newline, carriage
return, vertical tab, form feed). -/
def isSpc (c : Char) : Bool :=
  decide (c = ' ' ∨ c = '\t' ∨ c = '\n' ∨ c = '\r' ∨ c = '\x0b' ∨ c = '\x0c')

/-- `String.prototype.trim`: drop whitespace from both ends. -/
def strTrim (s : String) : String :=
  ⟨((s.data.dropWhile isSpc).reverse.dropWhile isSpc).reverse⟩

/-- `cityOf` from `server.js`:
`String(location||'').split(',')[0].trim()` — the chunk before the
first comma, trimmed. -/
def cityOf (location : String) : String :=
  strTrim ⟨location.data.takeWhile (fun c => decide (c ≠ ','))⟩

/-- Is the first list a prefix of the second?  (Executable form of
`String.prototype.startsWith`.) -/
def chkPre : List Char → List Char → Bool
  | [], _ => true
  | _ :: _, [] => false
  | c :: cs, d :: ds => c = d && chkPre cs ds

/-- Does `hay` contain `sub` as a contiguous substring?  (Executable
form of `String.prototype.includes`.) -/
def hasSub (sub : List Char) : List Char → Bool
  | [] => chkPre sub []
  | c :: t => chkPre sub (c :: t) || hasSub sub t

/-- The inner loop of `levenshtein` in `server.js`: one pass of the
rolling dynamic-programming row.  Arguments: the character `a[i-1]`,
the remaining characters of `b`, the remaining old-row entries
`dp[j..n]`, `prev` (the old `dp[j-1]`), and `left` (the freshly
written `dp[j-1]`).  Produces the new entries `dp[j..n]`. -/
def levInner (a : Char) : List Char → List Nat → Nat → Nat → List Nat
  | [], _, _, _ => []
  | _ :: _, [], _, _ => []
  | b :: bs, oldj :: oldRest, prev, left =>
    let cost : Nat := if a = b then 0 else 1
    let v := min (min (oldj + 1) (left + 1)) (prev + cost)
    v :: levInner a bs oldRest oldj v

/-- The outer loop of `levenshtein`: fold the rolling row over the
characters of `a`.  `k` is the number of rows already produced (the
JS `i - 1`); each step writes `dp[0] = k+1` and runs the inner loop
with `prev = k`. -/
def levOuter (bs : List Char) : List Char → List Nat → Nat → List Nat
  | [], row, _ => row
  | a :: as, row, k => levOuter bs as ((k + 1) :: levInner a bs row.tail k (k + 1)) (k + 1)

/-- `levenshtein` from `server.js`: early return on an empty argument,
otherwise run the dynamic program (row initialised to `0..n`) and read
off `dp[n]`. -/
def levenshtein (a b : String) : Nat :=
  let m := a.length
  let n := b.length
  if m = 0 then n
  else if n = 0 then m
  else (levOuter b.data a.data (List.range (n + 1)) 0).getD n 0

/-- The textbook Levenshtein recurrence (reference definition used to
verify the dynamic program): distance between two character lists,
recursing on the heads, with the same three-way minimum and the same
cost function as the source. -/
def levRec : List Char → List Char → Nat
  | [], ys => ys.length
  | x :: xs, [] => (x :: xs).length
  | x :: xs, y :: ys =>
    min (min (levRec xs (y :: ys) + 1) (levRec (x :: xs) ys + 1))
      (levRec xs ys + (if x = y then 0 else 1))
termination_by xs ys => xs.length + ys.length

/-- An alignment of two character lists with a given number of edit
operations: `EditSeq xs ys n` holds when `ys` can be obtained from
`xs` using exactly `n` single-character substitutions, deletions and
insertions (matched characters are free).  The minimum such `n` is the
classic edit distance. -/
inductive EditSeq : List Char → List Char → Nat → Prop
  | nil : EditSeq [] [] 0
  | copy (c : Char) {xs ys : List Char} {n : Nat} :
      EditSeq xs ys n → EditSeq (c :: xs) (c :: ys) n
  | subst (c d : Char) {xs ys : List Char} {n : Nat} :
      EditSeq xs ys n → EditSeq (c :: xs) (d :: ys) (n + 1)
  | del (c : Char) {xs ys : List Char} {n : Nat} :
      EditSeq xs ys n → EditSeq (c :: xs) ys (n + 1)
  | ins (d : Char) {xs ys : List Char} {n : Nat} :
      EditSeq xs ys n → EditSeq xs (d :: ys) (n + 1)

example : levenshtein "brooklyn" "brooklin" = 1 := by decide
example : levenshtein "" "abc" = 3 := by decide
example : levenshtein "kitten" "sitting" = 3 := by decide
example : normLetters "St. Paul" = "stpaul" := by decide
example : cityOf "Queens, NY" = "Queens" := by decide
example : strTrim "  hi " = "hi" := by decide
example : hasSub "oo".data "brooklyn".data = true := by decide
example : chkPre "bro".data "brooklyn".data = true := by decide

/-! ## Basic facts about the reference recurrence -/

theorem levRec_nil_left (ys : List Char) : levRec [] ys = ys.length := by
  simp [levRec]

theorem levRec_nil_right (xs : List Char) : levRec xs [] = xs.length := by
  cases xs <;> simp [levRec]

theorem levRec_cons_cons (x y : Char) (xs ys : List Char) :
    levRec (x :: xs) (y :: ys) =
      min (min (levRec xs (y :: ys) + 1) (levRec (x :: xs) ys + 1))
        (levRec xs ys + (if x = y then 0 else 1)) := by
  simp [levRec]

theorem levRec_le_cons_left (c : Char) (xs ys : List Char) :
    levRec (c :: xs) ys ≤ levRec xs ys + 1 := by
  cases ys with
  | nil => simp [levRec_nil_right]
  | cons y ys =>
    rw [levRec_cons_cons]
    exact le_trans (Nat.min_le_left _ _) (Nat.min_le_left _ _)

theorem levRec_le_cons_right (d : Char) (xs ys : List Char) :
    levRec xs (d :: ys) ≤ levRec xs ys + 1 := by
  cases xs with
  | nil => simp [levRec_nil_left]
  | cons x xs =>
    rw [levRec_cons_cons]
    exact le_trans (Nat.min_le_left _ _) (Nat.min_le_right _ _)

theorem levRec_le_subst (c d : Char) (xs ys : List Char) :
    levRec (c :: xs) (d :: ys) ≤ levRec xs ys + 1 := by
  rw [levRec_cons_cons]
  refine le_trans (Nat.min_le_right _ _) (Nat.add_le_add_left ?_ _)
  split <;> omega

theorem levRec_le_copy (c : Char) (xs ys : List Char) :
    levRec (c :: xs) (c :: ys) ≤ levRec xs ys := by
  rw [levRec_cons_cons]
  refine le_trans (Nat.min_le_right _ _) ?_
  simp

/-! ## The alignment relation: existence, minimality, symmetry -/

theorem editSeq_refl (xs : List Char) : EditSeq xs xs 0 := by
  induction xs with
  | nil => exact .nil
  | cons c cs ih => exact .copy c ih

theorem editSeq_nil_left (ys : List Char) : EditSeq [] ys ys.length := by
  induction ys with
  | nil => exact .nil
  | cons d ds ih => exact .ins d ih

theorem editSeq_nil_right (xs : List Char) : EditSeq xs [] xs.length := by
  induction xs with
  | nil => exact .nil
  | cons c cs ih => exact .del c ih

theorem editSeq_symm {xs ys : List Char} {n : Nat} (h : EditSeq xs ys n) :
    EditSeq ys xs n := by
  induction h with
  | nil => exact .nil
  | copy c _ ih => exact .copy c ih
  | subst c d _ ih => exact .subst d c ih
  | del c _ ih => exact .ins c ih
  | ins d _ ih => exact .del d ih

/-- Minimality: the recurrence value is a lower bound on the cost of
every alignment. -/
theorem levRec_le_of_editSeq {xs ys : List Char} {n : Nat} (h : EditSeq xs ys n) :
    levRec xs ys ≤ n := by
  induction h with
  | nil => simp [levRec]
  | copy c _ ih => exact le_trans (levRec_le_copy _ _ _) ih
  | subst c d _ ih => exact le_trans (levRec_le_subst _ _ _ _) (Nat.add_le_add_right ih 1)
  | del c _ ih => exact le_trans (levRec_le_cons_left _ _ _) (Nat.add_le_add_right ih 1)
  | ins d _ ih => exact le_trans (levRec_le_cons_right _ _ _) (Nat.add_le_add_right ih 1)

/-- Existence: the recurrence value is realised by some alignment. -/
theorem editSeq_levRec : (xs ys : List Char) → EditSeq xs ys (levRec xs ys)
  | [], ys => by rw [levRec_nil_left]; exact editSeq_nil_left ys
  | x :: xs, [] => by rw [levRec_nil_right]; exact editSeq_nil_right _
  | x :: xs, y :: ys => by
    have hA := editSeq_levRec xs (y :: ys)
    have hB := editSeq_levRec (x :: xs) ys
    have hC := editSeq_levRec xs ys
    rw [levRec_cons_cons]
    rcases min_choice (min (levRec xs (y :: ys) + 1) (levRec (x :: xs) ys + 1))
        (levRec xs ys + (if x = y then 0 else 1)) with h | h
    · rw [h]
      rcases min_choice (levRec xs (y :: ys) + 1) (levRec (x :: xs) ys + 1) with h2 | h2
      · rw [h2]; exact .del x hA
      · rw [h2]; exact .ins y hB
    · rw [h]
      by_cases hxy : x = y
      · subst hxy; simpa using EditSeq.copy x hC
      · simpa [hxy] using EditSeq.subst x y hC
termination_by xs ys => xs.length + ys.length

theorem editSeq_append_copy (c : Char) {xs ys : List Char} {n : Nat}
    (h : EditSeq xs ys n) : EditSeq (xs ++ [c]) (ys ++ [c]) n := by
  induction h with
  | nil => exact .copy c .nil
  | copy e _ ih => exact .copy e ih
  | subst e f _ ih => exact .subst e f ih
  | del e _ ih => exact .del e ih
  | ins f _ ih => exact .ins f ih

theorem editSeq_append_subst (c d : Char) {xs ys : List Char} {n : Nat}
    (h : EditSeq xs ys n) : EditSeq (xs ++ [c]) (ys ++ [d]) (n + 1) := by
  induction h with
  | nil => exact .subst c d .nil
  | copy e _ ih => exact .copy e ih
  | subst e f _ ih => exact .subst e f ih
  | del e _ ih => exact .del e ih
  | ins f _ ih => exact .ins f ih

theorem editSeq_append_del (c : Char) {xs ys : List Char} {n : Nat}
    (h : EditSeq xs ys n) : EditSeq (xs ++ [c]) ys (n + 1) := by
  induction h with
  | nil => exact .del c .nil
  | copy e _ ih => exact .copy e ih
  | subst e f _ ih => exact .subst e f ih
  | del e _ ih => exact .del e ih
  | ins f _ ih => exact .ins f ih

theorem editSeq_append_ins (d : Char) {xs ys : List Char} {n : Nat}
    (h : EditSeq xs ys n) : EditSeq xs (ys ++ [d]) (n + 1) := by
  induction h with
  | nil => exact .ins d .nil
  | copy e _ ih => exact .copy e ih
  | subst e f _ ih => exact .subst e f ih
  | del e _ ih => exact .del e ih
  | ins f _ ih => exact .ins f ih

theorem editSeq_reverse {xs ys : List Char} {n : Nat} (h : EditSeq xs ys n) :
    EditSeq xs.reverse ys.reverse n := by
  induction h with
  | nil => exact .nil
  | copy c _ ih => simpa [List.reverse_cons] using editSeq_append_copy c ih
  | subst c d _ ih => simpa [List.reverse_cons] using editSeq_append_subst c d ih
  | del c _ ih => simpa [List.reverse_cons] using editSeq_append_del c ih
  | ins d _ ih => simpa [List.reverse_cons] using editSeq_append_ins d ih

theorem levRec_reverse (xs ys : List Char) :
    levRec xs.reverse ys.reverse = levRec xs ys := by
  apply Nat.le_antisymm
  · exact levRec_le_of_editSeq (editSeq_reverse (editSeq_levRec xs ys))
  · have h := levRec_le_of_editSeq (editSeq_reverse (editSeq_levRec xs.reverse ys.reverse))
    rw [List.reverse_reverse, List.reverse_reverse] at h
    exact h

/-! ## Correctness of the rolling-row dynamic program -/

/-- The tail of the "ideal" dynamic-programming row: for a reversed
`a`-prefix `R` and a reversed `b`-prefix `S`, the values of the
recurrence on `R` against the successive extensions of `S` by the
remaining characters `q` of `b`. -/
def tailRow (R : List Char) : List Char → List Char → List Nat
  | _, [] => []
  | S, d :: q => levRec R (d :: S) :: tailRow R (d :: S) q

/-- The full ideal row for reversed `a`-prefix `R`: entry `j` is the
recurrence value of `R` against the reversed length-`j` prefix of
`bL`. -/
def idealRow (R bL : List Char) : List Nat :=
  levRec R [] :: tailRow R [] bL

theorem levInner_spec (c : Char) (R : List Char) (q : List Char) :
    ∀ S : List Char,
      levInner c q (tailRow R S q) (levRec R S) (levRec (c :: R) S) =
        tailRow (c :: R) S q := by
  induction q with
  | nil => intro S; simp [levInner, tailRow]
  | cons d q ih =>
    intro S
    simp only [tailRow, levInner]
    rw [← levRec_cons_cons c d R S]
    rw [ih (d :: S)]

theorem levOuter_spec (bL : List Char) (p : List Char) :
    ∀ R : List Char,
      levOuter bL p (idealRow R bL) R.length = idealRow (List.reverseAux p R) bL := by
  induction p with
  | nil => intro R; simp [levOuter, List.reverseAux]
  | cons c p ih =>
    intro R
    have h1 : levInner c bL (tailRow R [] bL) (levRec R []) (levRec (c :: R) []) =
        tailRow (c :: R) [] bL := levInner_spec c R bL []
    rw [levRec_nil_right, levRec_nil_right] at h1
    simp only [List.length_cons] at h1
    simp only [levOuter, List.reverseAux]
    show levOuter bL p
        ((R.length + 1) :: levInner c bL (tailRow R [] bL) R.length (R.length + 1))
        (R.length + 1) = _
    rw [h1]
    have h2 : (R.length + 1) :: tailRow (c :: R) [] bL = idealRow (c :: R) bL := by
      simp [idealRow, levRec_nil_right]
    rw [h2]
    exact ih (c :: R)

theorem tailRow_nil (q : List Char) :
    ∀ S : List Char, tailRow [] S q = List.range' (S.length + 1) q.length := by
  induction q with
  | nil => intro S; simp [tailRow]
  | cons d q ih =>
    intro S
    simp only [tailRow, levRec_nil_left, List.length_cons, List.range'_succ]
    rw [ih (d :: S)]
    simp

theorem idealRow_nil (bL : List Char) :
    idealRow [] bL = List.range (bL.length + 1) := by
  simp [idealRow, levRec_nil_left, tailRow_nil, List.range_eq_range', List.range'_succ]

theorem tailRow_getD (R : List Char) :
    ∀ (q : List Char) (d : Char) (S : List Char),
      (tailRow R S (d :: q)).getD q.length 0 = levRec R ((d :: q).reverse ++ S) := by
  intro q
  induction q with
  | nil => intro d S; simp [tailRow]
  | cons e q ih =>
    intro d S
    have hu : tailRow R S (d :: e :: q) = levRec R (d :: S) :: tailRow R (d :: S) (e :: q) :=
      rfl
    rw [hu]
    simp only [List.length_cons, List.getD_cons_succ]
    rw [ih e (d :: S)]
    simp [List.reverse_cons, List.append_assoc]

/-- The dynamic program of the source agrees with the textbook
recurrence. -/
theorem levenshtein_eq_levRec (a b : String) :
    levenshtein a b = levRec a.data b.data := by
  simp only [levenshtein]
  by_cases hm : a.length = 0
  · have ha : a.data = [] := List.length_eq_zero.mp hm
    rw [if_pos hm, ha, levRec_nil_left]
    rfl
  · rw [if_neg hm]
    by_cases hn : b.length = 0
    · have hb : b.data = [] := List.length_eq_zero.mp hn
      rw [if_pos hn, hb, levRec_nil_right]
      rfl
    · rw [if_neg hn]
      have hrange : List.range (b.length + 1) = idealRow [] b.data := by
        rw [idealRow_nil]
        rfl
      rw [hrange]
      have h2 := levOuter_spec b.data a.data []
      simp only [List.length_nil, List.reverseAux_eq, List.append_nil] at h2
      rw [h2]
      have hne : b.data ≠ [] := fun h => hn (List.length_eq_zero.mpr h)
      obtain ⟨d, q, hbd⟩ := List.exists_cons_of_ne_nil hne
      have hlen : b.length = q.length + 1 := by
        show b.data.length = q.length + 1
        rw [hbd]
        rfl
      rw [hbd, hlen]
      simp only [idealRow, List.getD_cons_succ]
      rw [tailRow_getD]
      rw [List.append_nil, ← hbd]
      exact levRec_reverse a.data b.data

/-! ## String-level corollaries about `levenshtein` -/

theorem editSeq_levenshtein (a b : String) :
    EditSeq a.data b.data (levenshtein a b) := by
  rw [levenshtein_eq_levRec]
  exact editSeq_levRec a.data b.data

theorem levenshtein_le_of_editSeq {a b : String} {n : Nat}
    (h : EditSeq a.data b.data n) : levenshtein a b ≤ n := by
  rw [levenshtein_eq_levRec]
  exact levRec_le_of_editSeq h

theorem levenshtein_nil_right (a : String) : levenshtein a "" = a.length := by
  rw [levenshtein_eq_levRec]
  exact levRec_nil_right a.data

theorem levenshtein_nil_left (b : String) : levenshtein "" b = b.length := by
  rw [levenshtein_eq_levRec]
  exact levRec_nil_left b.data

theorem levenshtein_self (a : String) : levenshtein a a = 0 :=
  Nat.le_antisymm (levenshtein_le_of_editSeq (editSeq_refl a.data)) (Nat.zero_le _)

theorem levenshtein_comm (a b : String) : levenshtein a b = levenshtein b a :=
  Nat.le_antisymm
    (levenshtein_le_of_editSeq (editSeq_symm (editSeq_levenshtein b a)))
    (levenshtein_le_of_editSeq (editSeq_symm (editSeq_levenshtein a b)))

/-- **C2.** The Distance Scorer `levenshtein` returns the minimum number
of single-character insertions, deletions or substitutions needed to
transform `a` into `b`: its value is realised by an alignment
(`EditSeq`) and is a lower bound on the cost of every alignment; and
when either input is empty the result is the length of the other
string. -/
theorem levenshtein_computes_min_edit_distance (a b : String) :
    EditSeq a.data b.data (levenshtein a b)
      ∧ (∀ n, EditSeq a.data b.data n → levenshtein a b ≤ n)
      ∧ levenshtein "" b = b.length
      ∧ levenshtein a "" = a.length :=
  ⟨editSeq_levenshtein a b, fun _ h => levenshtein_le_of_editSeq h,
    levenshtein_nil_left b, levenshtein_nil_right a⟩

/-- Closed instance of **C2**: `levenshtein "kitten" "sitting" ≤ 3`,
obtained by applying the minimality half of the theorem to an explicit
three-operation alignment. -/
theorem levenshtein_computes_min_edit_distance_witness :
    levenshtein "kitten" "sitting" ≤ 3 :=
  (levenshtein_computes_min_edit_distance "kitten" "sitting").2.1 3
    (EditSeq.subst 'k' 's' (EditSeq.copy 'i' (EditSeq.copy 't' (EditSeq.copy 't'
      (EditSeq.subst 'e' 'i' (EditSeq.copy 'n' (EditSeq.ins 'g' EditSeq.nil)))))))

/-- **C7.** Algebraic identities of the Distance Scorer: reflexivity
gives distance `0`, the distance to the empty string is the length, and
the scorer is symmetric in its arguments. -/
theorem levenshtein_algebraic_identities (a b : String) :
    levenshtein a a = 0
      ∧ levenshtein a "" = a.length
      ∧ levenshtein a b = levenshtein b a :=
  ⟨levenshtein_self a, levenshtein_nil_right a, levenshtein_comm a b⟩

/-! ## The Matcher: `pickMatchingCities` -/

theorem chkPre_iff (xs ys : List Char) : chkPre xs ys = true ↔ xs <+: ys := by
  induction xs generalizing ys with
  | nil => simp [chkPre]
  | cons c cs ih =>
    cases ys with
    | nil => simp [chkPre]
    | cons d ds => simp [chkPre, List.cons_prefix_cons, ih]

theorem hasSub_iff (sub hay : List Char) : hasSub sub hay = true ↔ sub <:+: hay := by
  induction hay with
  | nil =>
    show chkPre sub [] = true ↔ _
    rw [chkPre_iff]
    simp
  | cons c t ih =>
    show (chkPre sub (c :: t) || hasSub sub t) = true ↔ _
    rw [ List.infix_cons_iff]
    simp [chkPre_iff, ih]

/-- The per-candidate acceptance test inside the loop of
`pickMatchingCities`: skip candidates with an empty normalized key,
accept on a raw lowercase substring hit, a normalized substring hit, a
normalized prefix hit, or edit distance at most 2 on the normalized
keys.  `q` is the trimmed query and `qn` its normalized key. -/
def cityMatch (q qn : String) (c : String) : Bool :=
  let cn := normLetters c
  if cn = "" then false
  else if hasSub (strLower q).data (strLower c).data || hasSub qn.data cn.data
      || chkPre qn.data cn.data then true
  else decide (levenshtein cn qn ≤ 2)

/-- `pickMatchingCities` from `server.js`: trim the query (empty query
gives the empty result), then keep the candidate cities accepted by
`cityMatch`.  The source collects matches into a `Set`; the result is
modelled as the sublist of matching candidates, so set membership is
list membership. -/
def pickMatchingCities (allCities : List String) (query : String) : List String :=
  let q := strTrim query
  if q = "" then []
  else allCities.filter (cityMatch q (normLetters q))

example : pickMatchingCities ["Brooklyn", "Queens", "Bronx"] "brooklyn" = ["Brooklyn"] := by
  decide
example : pickMatchingCities ["Brooklyn"] "xyzw" = [] := by decide

theorem mem_pickMatchingCities {cities : List String} {query c : String} :
    c ∈ pickMatchingCities cities query ↔
      strTrim query ≠ "" ∧ c ∈ cities ∧
        cityMatch (strTrim query) (normLetters (strTrim query)) c = true := by
  unfold pickMatchingCities
  by_cases h : strTrim query = "" <;> simp [h, List.mem_filter]

theorem cityMatch_iff {q qn c : String} (hcn : normLetters c ≠ "") :
    cityMatch q qn c = true ↔
      ((strLower q).data <:+: (strLower c).data
        ∨ qn.data <:+: (normLetters c).data
        ∨ qn.data <+: (normLetters c).data
        ∨ levenshtein (normLetters c) qn ≤ 2) := by
  simp only [cityMatch]
  rw [if_neg hcn]
  by_cases hb : (hasSub (strLower q).data (strLower c).data
      || hasSub qn.data (normLetters c).data
      || chkPre qn.data (normLetters c).data) = true
  · rw [if_pos hb]
    simp only [Bool.or_eq_true, hasSub_iff, chkPre_iff] at hb
    simp only [true_iff]
    tauto
  · rw [if_neg hb]
    simp only [Bool.or_eq_true, hasSub_iff, chkPre_iff] at hb
    push_neg at hb
    simp only [decide_eq_true_eq]
    constructor
    · intro h
      tauto
    · intro h
      rcases h with h | h | h | h
      · exact absurd h hb.1.1
      · exact absurd h hb.1.2
      · exact absurd h hb.2
      · exact h

/-- **C1.** For a query that is non-empty after trimming, the Matcher
accepts a candidate `c` with non-empty normalized key `cn` iff the raw
city lowercased contains the trimmed raw query lowercased as a
substring, or `cn` contains the normalized query `qn` as a substring,
or `cn` starts with `qn`, or the edit distance between `cn` and `qn`
is at most 2; a candidate whose normalized key is empty is never
accepted. -/
theorem matcher_accepts_iff (cities : List String) (query c : String)
    (hq : strTrim query ≠ "") :
    (normLetters c ≠ "" →
      (c ∈ pickMatchingCities cities query ↔
        c ∈ cities ∧
          ((strLower (strTrim query)).data <:+: (strLower c).data
            ∨ (normLetters (strTrim query)).data <:+: (normLetters c).data
            ∨ (normLetters (strTrim query)).data <+: (normLetters c).data
            ∨ levenshtein (normLetters c) (normLetters (strTrim query)) ≤ 2)))
    ∧ (normLetters c = "" → c ∉ pickMatchingCities cities query) := by
  constructor
  · intro hcn
    rw [mem_pickMatchingCities, cityMatch_iff hcn]
    simp [hq]
  · intro hcn hmem
    have hm := (mem_pickMatchingCities.mp hmem).2.2
    simp [cityMatch, hcn] at hm

/-- Closed instance of **C1**: with candidate set `{"Brooklyn"}` and
query `"broklyn"` (one deletion from the key), membership holds via
the edit-distance disjunct. -/
theorem matcher_accepts_iff_witness :
    "Brooklyn" ∈ pickMatchingCities ["Brooklyn"] "broklyn" :=
  (((matcher_accepts_iff ["Brooklyn"] "broklyn" "Brooklyn" (by decide)).1
    (by decide)).mpr ⟨by decide, Or.inr (Or.inr (Or.inr (by decide)))⟩)

/-- **C4.** The Matcher's output is always a subset of the candidate
city set passed in; in particular the raw user query is never returned
unless that exact string is itself a candidate city. -/
theorem matcher_subset (cities : List String) (query c : String) :
    (c ∈ pickMatchingCities cities query → c ∈ cities)
    ∧ (query ∉ cities → query ∉ pickMatchingCities cities query) := by
  constructor
  · intro h
    exact (mem_pickMatchingCities.mp h).2.1
  · intro hq hmem
    exact hq (mem_pickMatchingCities.mp hmem).2.1

/-- Closed instance of **C4**: a match produced by the Matcher is one
of the candidates, and a query that is no candidate is not returned. -/
theorem matcher_subset_witness :
    "Brooklyn" ∈ ["Brooklyn", "Queens"]
      ∧ "brooklin" ∉ pickMatchingCities ["Brooklyn", "Queens"] "brooklin" :=
  ⟨(matcher_subset ["Brooklyn", "Queens"] "brooklyn" "Brooklyn").1 (by decide),
    (matcher_subset ["Brooklyn", "Queens"] "brooklin" "brooklin").2 (by decide)⟩

/-- **C10.** A query that is non-empty after trimming but whose
normalized key is empty (digits or punctuation only) matches every
candidate whose normalized key is non-empty: the empty `qn` is a
substring of every `cn`, so such a location query filters nothing
out. -/
theorem matcher_empty_normalized_query (cities : List String) (query c : String)
    (hq : strTrim query ≠ "") (hqn : normLetters (strTrim query) = "") :
    c ∈ pickMatchingCities cities query ↔ c ∈ cities ∧ normLetters c ≠ "" := by
  rw [mem_pickMatchingCities]
  constructor
  · rintro ⟨-, hc, hm⟩
    refine ⟨hc, fun hcn => ?_⟩
    simp [cityMatch, hcn] at hm
  · rintro ⟨hc, hcn⟩
    refine ⟨hq, hc, ?_⟩
    rw [cityMatch_iff hcn, hqn]
    right
    left
    exact List.nil_infix

/-- Closed instance of **C10**: the all-digit query `"95"` trims to a
non-empty string with empty normalized key, and matches
`"Brooklyn"`. -/
theorem matcher_empty_normalized_query_witness :
    "Brooklyn" ∈ pickMatchingCities ["Brooklyn"] "95" :=
  (matcher_empty_normalized_query ["Brooklyn"] "95" "Brooklyn" (by decide)
    (by decide)).mpr ⟨by decide, by decide⟩

/-- **C9 counterexample.** The normalized keys `"brooklyn"` and
`"brooklin"` differ in exactly one position, so the edit distance the
code computes is 1, not 2 as the claim states. -/
theorem brooklyn_brooklin_distance_not_two :
    levenshtein "brooklyn" "brooklin" ≠ 2 := by decide

/-- **C9 (amended).** Transforming `"brooklyn"` into `"brooklin"`
takes one substitution, so the edit distance is 1 (within the
threshold 2), and the Matcher returns `{"Brooklyn"}` for candidate set
`{"Brooklyn"}` and query `"brooklin"`. -/
theorem brooklyn_brooklin_match :
    levenshtein "brooklyn" "brooklin" = 1
      ∧ pickMatchingCities ["Brooklyn"] "brooklin" = ["Brooklyn"] := by
  constructor
  · decide
  · decide

/-! ## The Normalizer: `normLetters` -/

theorem lowerChar_eq_self_of_isLowerAZ {c : Char} (h : isLowerAZ c = true) :
    lowerChar c = c := by
  simp only [isLowerAZ, decide_eq_true_eq] at h
  unfold lowerChar
  rw [if_neg (by omega)]

/-- **C8.** The normalized key contains only lowercase ASCII letters
`a`–`z` (code points 97–122); normalization is idempotent; and the
empty string normalizes to the empty key. -/
theorem normLetters_only_lowercase_and_idempotent (s : String) :
    (∀ c ∈ (normLetters s).data, 97 ≤ c.toNat ∧ c.toNat ≤ 122)
      ∧ normLetters (normLetters s) = normLetters s
      ∧ normLetters "" = "" := by
  refine ⟨?_, ?_, rfl⟩
  · intro c hc
    have h := (List.mem_filter.mp hc).2
    simpa [isLowerAZ] using h
  · show (⟨((normLetters s).data.map lowerChar).filter isLowerAZ⟩ : String) = normLetters s
    have hmem : ∀ c ∈ (normLetters s).data, isLowerAZ c = true :=
      fun c hc => (List.mem_filter.mp hc).2
    have h1 : (normLetters s).data.map lowerChar = (normLetters s).data := by
      rw [List.map_congr_left (fun c hc => lowerChar_eq_self_of_isLowerAZ (hmem c hc))]
      exact List.map_id _
    rw [h1, List.filter_eq_self.mpr hmem]

/-- Closed instance of **C8**: normalizing `"St. Paul"` twice equals
normalizing it once. -/
theorem normLetters_only_lowercase_and_idempotent_witness :
    normLetters (normLetters "St. Paul") = normLetters "St. Paul" :=
  (normLetters_only_lowercase_and_idempotent "St. Paul").2.1

/-! ## Search integration: the `/api/listings` handler (public path) -/

/-- A stored listing, restricted to the fields the search endpoint
reads.  `tags` models the SQL `IFNULL(l.tags,'')` (a missing tags
column is the empty string). -/
structure Listing where
  id : Nat
  title : String
  description : String
  tags : String
  location : String
deriving DecidableEq

/-- Insert a listing into a list that is sorted by descending id. -/
def insertDesc (x : Listing) : List Listing → List Listing
  | [] => [x]
  | y :: ys => if y.id ≤ x.id then x :: y :: ys else y :: insertDesc x ys

/-- `ORDER BY l.id DESC`: sort by descending id. -/
def sortByIdDesc : List Listing → List Listing
  | [] => []
  | x :: xs => insertDesc x (sortByIdDesc xs)

theorem mem_insertDesc {x z : Listing} :
    ∀ {l : List Listing}, z ∈ insertDesc x l → z = x ∨ z ∈ l := by
  intro l
  induction l with
  | nil =>
    intro h
    simp only [insertDesc, List.mem_singleton] at h
    exact Or.inl h
  | cons y ys ih =>
    intro h
    simp only [insertDesc] at h
    split at h
    · rcases List.mem_cons.mp h with rfl | h2
      · exact Or.inl rfl
      · exact Or.inr h2
    · rcases List.mem_cons.mp h with rfl | h2
      · exact Or.inr (List.mem_cons_self _ _)
      · rcases ih h2 with rfl | h3
        · exact Or.inl rfl
        · exact Or.inr (List.mem_cons_of_mem _ h3)

theorem pairwise_insertDesc {x : Listing} {l : List Listing}
    (h : l.Pairwise (fun a b => b.id ≤ a.id)) :
    (insertDesc x l).Pairwise (fun a b => b.id ≤ a.id) := by
  induction l with
  | nil => simp [insertDesc]
  | cons y ys ih =>
    rw [List.pairwise_cons] at h
    obtain ⟨hy, hys⟩ := h
    by_cases hxy : y.id ≤ x.id
    · simp only [insertDesc, if_pos hxy]
      refine List.Pairwise.cons ?_ (List.Pairwise.cons hy hys)
      intro z hz
      rcases List.mem_cons.mp hz with rfl | hz2
      · exact hxy
      · exact le_trans (hy z hz2) hxy
    · simp only [insertDesc, if_neg hxy]
      refine List.Pairwise.cons ?_ (ih hys)
      intro z hz
      rcases mem_insertDesc hz with rfl | hz2
      · omega
      · exact hy z hz2

theorem sortByIdDesc_pairwise (l : List Listing) :
    (sortByIdDesc l).Pairwise (fun a b => b.id ≤ a.id) := by
  induction l with
  | nil => simp [sortByIdDesc]
  | cons x xs ih =>
    show (insertDesc x (sortByIdDesc xs)).Pairwise _
    exact pairwise_insertDesc ih

/-- The SQL text filter of the endpoint:
`LOWER(title) LIKE %q% OR LOWER(description) LIKE %q% OR
LOWER(IFNULL(tags,'')) LIKE %q% OR LOWER(location) LIKE %q%`,
modelled as case-lowered substring containment of the already
lowercased query. -/
def textPred (qRaw : String) (r : Listing) : Bool :=
  hasSub qRaw.data (strLower r.title).data
    || hasSub qRaw.data (strLower r.description).data
    || hasSub qRaw.data (strLower r.tags).data
    || hasSub qRaw.data (strLower r.location).data

/-- `baseRowsPublic` of the endpoint: the step-1 rows — all listings,
text-filtered when the query is non-empty, ordered by id
descending. -/
def baseRowsPublic (corpus : List Listing) (qRaw : String) : List Listing :=
  if qRaw = "" then sortByIdDesc corpus
  else sortByIdDesc (corpus.filter (textPred qRaw))

/-- The Candidate City Set of the endpoint:
`SELECT DISTINCT location FROM listings`, drop empty locations, take
city tokens, drop empty tokens.  Computed from the full corpus. -/
def candidateCities (corpus : List Listing) : List String :=
  ((((corpus.map (fun l => l.location)).dedup).filter
      (fun s => decide (s ≠ ""))).map cityOf).filter (fun s => decide (s ≠ ""))

/-- The location-narrowing step of the endpoint, parametrized by the
candidate city vocabulary: if the Matcher finds no city, zero out the
rows; otherwise keep rows whose normalized city token is among the
normalized matches. -/
def narrowByLoc (allCities : List String) (locRaw : String) (rows : List Listing) :
    List Listing :=
  let ms := pickMatchingCities allCities locRaw
  if ms = [] then []
  else
    let setNorm := ms.map normLetters
    rows.filter (fun r => setNorm.contains (normLetters (cityOf r.location)))

/-- The `/api/listings` handler, public path: coerce missing `q`/`loc`
to the empty string (`(req.query.x || '').toString()`), trim (and
lowercase `q`), compute the step-1 rows, and apply location narrowing
only when `loc` is non-empty after trimming. -/
def searchListings (corpus : List Listing) (q loc : Option String) : List Listing :=
  let qRaw := strLower (strTrim (q.getD ""))
  let locRaw := strTrim (loc.getD "")
  let rows := baseRowsPublic corpus qRaw
  if locRaw = "" then rows
  else narrowByLoc (candidateCities corpus) locRaw rows

/-- **C5.** When the location query is empty or absent (after
trimming; a missing parameter is coerced to the empty string, never an
error), the search returns the step-1 text-filtered rows unchanged,
ordered by listing id descending. -/
theorem searchListings_no_loc (corpus : List Listing) (q loc : Option String)
    (hloc : strTrim (loc.getD "") = "") :
    searchListings corpus q loc = baseRowsPublic corpus (strLower (strTrim (q.getD "")))
      ∧ (searchListings corpus q loc).Pairwise (fun a b => b.id ≤ a.id) := by
  have h1 : searchListings corpus q loc =
      baseRowsPublic corpus (strLower (strTrim (q.getD ""))) := by
    simp [searchListings, hloc]
  refine ⟨h1, ?_⟩
  rw [h1]
  unfold baseRowsPublic
  split
  · exact sortByIdDesc_pairwise _
  · exact sortByIdDesc_pairwise _

/-- Closed instance of **C5**: with `loc` absent, the search equals the
text-filtered rows and is sorted by descending id. -/
theorem searchListings_no_loc_witness :
    searchListings [⟨1, "Red bike", "good", "", "Brooklyn, NY"⟩] (some "bike") none =
        baseRowsPublic [⟨1, "Red bike", "good", "", "Brooklyn, NY"⟩]
          (strLower (strTrim ((some "bike").getD "")))
      ∧ (searchListings [⟨1, "Red bike", "good", "", "Brooklyn, NY"⟩] (some "bike")
          none).Pairwise (fun a b => b.id ≤ a.id) :=
  searchListings_no_loc _ (some "bike") none (by decide)

/-- **C3.** If the location query is non-empty after trimming and the
Matcher returns no city over the Candidate City Set, the search
returns the empty list — for every text query, including ones that
match rows on their own. -/
theorem searchListings_strict_empty (corpus : List Listing) (q loc : Option String)
    (hloc : strTrim (loc.getD "") ≠ "")
    (hm : pickMatchingCities (candidateCities corpus) (strTrim (loc.getD "")) = []) :
    searchListings corpus q loc = [] := by
  simp only [searchListings]
  rw [if_neg hloc]
  simp only [narrowByLoc]
  rw [if_pos hm]

/-- Closed instance of **C3**: the text query `"bike"` alone matches a
row, yet the unmatched location query `"atlantis"` zeroes the
result. -/
theorem searchListings_strict_empty_witness :
    baseRowsPublic [⟨1, "Red bike", "good", "", "Brooklyn, NY"⟩]
        (strLower (strTrim "bike")) ≠ []
      ∧ searchListings [⟨1, "Red bike", "good", "", "Brooklyn, NY"⟩] (some "bike")
          (some "atlantis") = [] :=
  ⟨by decide,
    searchListings_strict_empty _ (some "bike") (some "atlantis") (by decide) (by decide)⟩

/-- **C6.** For a non-empty location query the vocabulary fed to the
Matcher is `candidateCities corpus`, a function of the full unfiltered
corpus applied to the step-1 rows by the narrowing step; and its
members are exactly the non-empty city tokens of all stored
listings. -/
theorem searchListings_global_vocabulary (corpus : List Listing) (q loc : Option String)
    (hloc : strTrim (loc.getD "") ≠ "") :
    searchListings corpus q loc =
        narrowByLoc (candidateCities corpus) (strTrim (loc.getD ""))
          (baseRowsPublic corpus (strLower (strTrim (q.getD ""))))
      ∧ (∀ s : String, s ∈ candidateCities corpus ↔
          s ≠ "" ∧ ∃ l ∈ corpus, cityOf l.location = s) := by
  constructor
  · simp only [searchListings]
    rw [if_neg hloc]
  · intro s
    unfold candidateCities
    constructor
    · intro hs
      obtain ⟨hmap, hs2⟩ := List.mem_filter.mp hs
      obtain ⟨loc', hloc', rfl⟩ := List.mem_map.mp hmap
      obtain ⟨hded, hne⟩ := List.mem_filter.mp hloc'
      obtain ⟨l, hl, rfl⟩ := List.mem_map.mp (List.mem_dedup.mp hded)
      exact ⟨by simpa using hs2, l, hl, rfl⟩
    · rintro ⟨hs, l, hl, rfl⟩
      apply List.mem_filter.mpr
      refine ⟨?_, by simpa using hs⟩
      apply List.mem_map.mpr
      refine ⟨l.location, ?_, rfl⟩
      apply List.mem_filter.mpr
      refine ⟨List.mem_dedup.mpr (List.mem_map.mpr ⟨l, hl, rfl⟩), ?_⟩
      simp only [decide_eq_true_eq]
      intro h0
      apply hs
      rw [h0]
      rfl

/-- Closed instance of **C6**: the candidate vocabulary of a one-row
corpus contains the city token of its single listing. -/
theorem searchListings_global_vocabulary_witness :
    "Brooklyn" ∈ candidateCities [⟨1, "Red bike", "good", "", "Brooklyn, NY"⟩] :=
  ((searchListings_global_vocabulary [⟨1, "Red bike", "good", "", "Brooklyn, NY"⟩] none
      (some "brooklyn") (by decide)).2 "Brooklyn").mpr
    ⟨by decide, ⟨1, "Red bike", "good", "", "Brooklyn, NY"⟩, by decide, by decide⟩

end ListIt
